import Mathlib

/-!
Shallow embedding of `expression/expression.go` (package `expression`):
the scalar-expression layer of the TiDB query engine — the expression data
model, the typed coercion base, constants and their equality, balanced
normal-form composition and splitting, null-substitution folding, and
schema / unique-key derivation from table metadata.

Machine integers of the source (`int64`) are modelled as `Int`; `float64`
and `*types.MyDecimal` payloads are modelled as `Rat` (their arithmetic is
external to this file and never used by the properties below). Go's
`(value, error)` returns are modelled as `Except String` results or as
pairs with an `Option String` error component, matching the shape of each
source function.
-/

namespace TidbExpression

/-! ## Type kinds and classes (`types.FieldType`, `mysql` type tags) -/

/-- The subset of `mysql.Type*` tags used by this file. `typeNull` is
`mysql.TypeNull`, `typeTiny` is `mysql.TypeTiny` (the type given to
rebuilt boolean nodes), and the rest are representatives of the four
scalar classes. -/
inductive TypeKind where
  | typeNull
  | typeTiny
  | typeLonglong
  | typeDouble
  | typeVarchar
  | typeNewDecimal
  deriving DecidableEq, Repr

/-- `types.FieldType`: only the `Tp` tag matters for the code in scope. -/
structure FieldType where
  tp : TypeKind
  deriving DecidableEq, Repr

/-- `types.NewFieldType`. -/
def NewFieldType (k : TypeKind) : FieldType := ⟨k⟩

/-- `types.TypeClass`: the four scalar classes. -/
inductive TypeClass where
  | classInt
  | classReal
  | classString
  | classDecimal
  deriving DecidableEq, Repr

/-- Modelled from the spec: `types.FieldType.ToClass` lives outside this
repository slice; the spec (§4.2) says the declared type is classified
into one of the four scalar classes (integer, real, string, decimal). -/
def FieldType.toClass : FieldType → TypeClass
  | ⟨.typeTiny⟩ => .classInt
  | ⟨.typeLonglong⟩ => .classInt
  | ⟨.typeDouble⟩ => .classReal
  | ⟨.typeVarchar⟩ => .classString
  | ⟨.typeNull⟩ => .classString
  | ⟨.typeNewDecimal⟩ => .classDecimal

/-! ## Datums (`types.Datum`, external tagged scalar value) -/

/-- Modelled from the spec: the tagged scalar value (`types.Datum`) with
null check and per-kind direct accessors (§6). `dhex` stands for
`types.KindMysqlHex`, whose direct string accessor yields an empty value
(per the comment in `baseExpr.EvalString`) while `ToString` yields the
actual text. -/
inductive Datum where
  | dnull
  | dint (i : Int)
  | dreal (r : Rat)
  | dstr (s : String)
  | ddec (d : Rat)
  | dhex (s : String)
  deriving DecidableEq, Repr

/-- `Datum.IsNull`. -/
def Datum.isNull : Datum → Bool
  | .dnull => true
  | _ => false

/-- `Datum.GetInt64`: direct, non-converting accessor. -/
def Datum.getInt64 : Datum → Int
  | .dint i => i
  | _ => 0

/-- `Datum.GetFloat64`: direct, non-converting accessor. -/
def Datum.getFloat64 : Datum → Rat
  | .dreal r => r
  | _ => 0

/-- `Datum.GetString`: direct, non-converting accessor; on a hex kind it
yields the empty string (the very fact the source comment records). -/
def Datum.getString : Datum → String
  | .dstr s => s
  | _ => ""

/-- `Datum.GetMysqlDecimal`: direct, non-converting accessor. -/
def Datum.getMysqlDecimal : Datum → Rat
  | .ddec d => d
  | _ => 0

/-- Modelled from the spec: `Datum.ToString` (scalar-value library, §6),
the directional to-string conversion; unlike `getString` it recovers the
text of a hex value. Result is `(value, error)` as in Go. -/
def Datum.toStr : Datum → String × Option String
  | .dnull => ("", some "cannot convert null to string")
  | .dint i => (toString i, none)
  | .dreal r => (toString r, none)
  | .dstr s => (s, none)
  | .ddec d => (toString d, none)
  | .dhex s => (s, none)

/-- Modelled from the spec: the context-sensitive directional conversions
of the scalar-value library (`ToInt64`, `ToFloat64`, `ToDecimal`,
`ToBool`, §6) and the three-way comparison (`CompareDatum`), carried by
the statement context. Each returns `(value, error)` as in Go. -/
structure StatementContext where
  toInt64 : Datum → Int × Option String
  toFloat64 : Datum → Rat × Option String
  toDecimal : Datum → Option Rat × Option String
  toBool : Datum → Int × Option String
  compareDatum : Datum → Datum → Int × Option String

/-! ## Expressions -/

/-- `expression.Column` (external to this slice, consumed by
name/position per the spec §3): column name, table name, declared type,
and position. -/
structure Column where
  colName : String
  tblName : String
  retType : FieldType
  position : Nat
  deriving DecidableEq, Repr

/-- The closed expression variant set (spec §9): Constant, Column,
ScalarFunction. A `constant` carries `Value` and `RetType`; a
`scalarFunc` carries `FuncName` (its lowercase form, Go `CIStr.L`),
`RetType` and the ordered argument list. -/
inductive Expression where
  | constant (value : Datum) (retType : FieldType)
  | column (c : Column)
  | scalarFunc (funcName : String) (retType : FieldType) (args : List Expression)
  deriving Repr

mutual
/-- Decidable equality of expressions (the derive handler does not treat
nested inductives). -/
def Expression.decEq : (a b : Expression) → Decidable (a = b)
  | .constant v t, .constant w s =>
    if h : v = w ∧ t = s then .isTrue (by rw [h.1, h.2])
    else .isFalse (by intro he; cases he; exact h ⟨rfl, rfl⟩)
  | .constant _ _, .column _ => .isFalse (by intro he; cases he)
  | .constant _ _, .scalarFunc _ _ _ => .isFalse (by intro he; cases he)
  | .column _, .constant _ _ => .isFalse (by intro he; cases he)
  | .column c, .column d =>
    if h : c = d then .isTrue (by rw [h])
    else .isFalse (by intro he; cases he; exact h rfl)
  | .column _, .scalarFunc _ _ _ => .isFalse (by intro he; cases he)
  | .scalarFunc _ _ _, .constant _ _ => .isFalse (by intro he; cases he)
  | .scalarFunc _ _ _, .column _ => .isFalse (by intro he; cases he)
  | .scalarFunc n t args, .scalarFunc m s brgs =>
    if h : n = m ∧ t = s then
      match Expression.decEqList args brgs with
      | .isTrue h2 => .isTrue (by rw [h.1, h.2, h2])
      | .isFalse h2 => .isFalse (by intro he; cases he; exact h2 rfl)
    else .isFalse (by intro he; cases he; exact h ⟨rfl, rfl⟩)

/-- Decidable equality of expression lists, mutually with `decEq`. -/
def Expression.decEqList : (a b : List Expression) → Decidable (a = b)
  | [], [] => .isTrue rfl
  | [], _ :: _ => .isFalse (by intro he; cases he)
  | _ :: _, [] => .isFalse (by intro he; cases he)
  | a :: as, b :: bs =>
    match Expression.decEq a b, Expression.decEqList as bs with
    | .isTrue h1, .isTrue h2 => .isTrue (by rw [h1, h2])
    | .isFalse h1, _ => .isFalse (by intro he; injection he; contradiction)
    | _, .isFalse h2 => .isFalse (by intro he; injection he; contradiction)
end

instance : DecidableEq Expression := Expression.decEq

/-- `Expression.GetType`. -/
def Expression.getType : Expression → FieldType
  | .constant _ tp => tp
  | .column c => c.retType
  | .scalarFunc _ tp _ => tp

/-- `ast.AndAnd` (its lowercase `CIStr.L` form). -/
def astAndAnd : String := "and"

/-- `ast.OrOr` (its lowercase `CIStr.L` form). -/
def astOrOr : String := "or"

/-- Modelled from the spec: the function registry behind `NewFunction`
(§6); `valid name arity` says the function library knows `name` at that
argument count, the two failure modes of §7(b). -/
structure FuncEnv where
  valid : String → Nat → Bool

/-- Modelled from the spec: `expression.NewFunction` (§6) — the
function-construction entry point taking context, function name, declared
return type and argument expressions, yielding a ScalarFunction node or a
construction error (wrong argument count, unknown function name, §7(b)). -/
def NewFunction (fe : FuncEnv) (funcName : String) (retType : FieldType)
    (args : List Expression) : Except String Expression :=
  if fe.valid funcName args.length then
    .ok (.scalarFunc funcName retType args)
  else
    .error ("FUNCTION " ++ funcName ++ " does not exist")

/-! ## Normal-form composer (`composeConditionWithBinaryOp`) -/

/-- `composeConditionWithBinaryOp`: composes conditions with a binary
operator into a balanced tree. The Go function returns a bare
`Expression` that is `nil` for an empty list — and also when
`NewFunction` fails, because the source discards the error
(`expr, _ := NewFunction(...)`); `none` models that nil. -/
def composeConditionWithBinaryOp (fe : FuncEnv) (conditions : List Expression)
    (funcName : String) : Option Expression :=
  match conditions with
  | [] => none
  | [c] => some c
  | c1 :: c2 :: rest =>
    let conds := c1 :: c2 :: rest
    let lhs := composeConditionWithBinaryOp fe (conds.take (conds.length / 2)) funcName
    let rhs := composeConditionWithBinaryOp fe (conds.drop (conds.length / 2)) funcName
    match lhs, rhs with
    | some le, some re =>
      match NewFunction fe funcName (NewFieldType .typeTiny) [le, re] with
      | .ok e => some e
      | .error _ => none
    | _, _ => none
termination_by conditions.length
decreasing_by
  · simp only [List.length_take, List.length_cons]
    omega
  · simp only [List.length_drop, List.length_cons]
    omega

/-- `ComposeCNFCondition`: balanced AND tree. -/
def ComposeCNFCondition (fe : FuncEnv) (conditions : List Expression) : Option Expression :=
  composeConditionWithBinaryOp fe conditions astAndAnd

/-- `ComposeDNFCondition`: balanced OR tree. -/
def ComposeDNFCondition (fe : FuncEnv) (conditions : List Expression) : Option Expression :=
  composeConditionWithBinaryOp fe conditions astOrOr

/-! ## Normal-form splitter (`splitNormalFormItems`) -/

mutual
/-- `splitNormalFormItems`: flattens a CNF/DNF tree into its ordered
top-level operands, descending into every `ScalarFunction` whose name
equals `funcName` and treating anything else as an opaque leaf. -/
def splitNormalFormItems (onExpr : Expression) (funcName : String) : List Expression :=
  match onExpr with
  | .scalarFunc name _ args =>
    if name = funcName then splitNormalFormList args funcName
    else [onExpr]
  | e => [e]

/-- The `for _, arg := range v.GetArgs()` loop of `splitNormalFormItems`,
appending the recursive splits in order. -/
def splitNormalFormList (args : List Expression) (funcName : String) : List Expression :=
  match args with
  | [] => []
  | a :: rest => splitNormalFormItems a funcName ++ splitNormalFormList rest funcName
end

/-- `SplitCNFItems`. -/
def SplitCNFItems (onExpr : Expression) : List Expression :=
  splitNormalFormItems onExpr astAndAnd

/-- `SplitDNFItems`. -/
def SplitDNFItems (onExpr : Expression) : List Expression :=
  splitNormalFormItems onExpr astOrOr

/-! ## Evaluation (`Expression.Eval` and the coercion base `baseExpr`) -/

/-- Modelled from the spec: the opaque evaluator behind ScalarFunction
nodes (§3: "Function: opaque evaluator"; the core builds and inspects
nodes without implementing function semantics). `evalFunc name vals`
evaluates the named builtin on already-evaluated argument values. -/
structure EvalEnv where
  evalFunc : String → List Datum → Except String Datum

mutual
/-- `Expression.Eval`. `Constant.Eval` returns `Value` with no error path
(source); Column and ScalarFunction bodies live outside this slice and
are modelled from the spec: a column reads the datum at its resolved
position in the row, a scalar function evaluates its arguments in order
and applies the environment's opaque evaluator. -/
def Expression.eval (env : EvalEnv) (row : List Datum) : Expression → Except String Datum
  | .constant v _ => .ok v
  | .column c => .ok (row.getD c.position .dnull)
  | .scalarFunc name _ args =>
    match Expression.evalList env row args with
    | .ok vals => env.evalFunc name vals
    | .error e => .error e

/-- Left-to-right evaluation of an argument list, first error wins. -/
def Expression.evalList (env : EvalEnv) (row : List Datum) :
    List Expression → Except String (List Datum)
  | [] => .ok []
  | a :: rest =>
    match Expression.eval env row a with
    | .error e => .error e
    | .ok v =>
      match Expression.evalList env row rest with
      | .error e => .error e
      | .ok vs => .ok (v :: vs)
end

/-- The null check Go performs on the `(val, err)` pair of `Eval`: when
`err != nil` the accompanying datum is the zero `types.Datum`, whose kind
is the null kind, so `val.IsNull()` is true on the error path. -/
def evalResultIsNull : Except String Datum → Bool
  | .ok v => v.isNull
  | .error _ => true

/-- `baseExpr.EvalInt`; result is the Go triple `(int64, isNull, error)`. -/
def EvalInt (env : EvalEnv) (sc : StatementContext) (self : Expression)
    (row : List Datum) : Int × Bool × Option String :=
  if self.getType.tp = .typeNull then (0, true, none)
  else
    match self.eval env row with
    | .error e => (0, evalResultIsNull (.error e), some e)
    | .ok val =>
      if val.isNull then (0, true, none)
      else
        match self.getType.toClass with
        | .classInt => (val.getInt64, false, none)
        | _ =>
          let res := sc.toInt64 val
          (res.1, false, res.2)

/-- `baseExpr.EvalReal`. -/
def EvalReal (env : EvalEnv) (sc : StatementContext) (self : Expression)
    (row : List Datum) : Rat × Bool × Option String :=
  if self.getType.tp = .typeNull then (0, true, none)
  else
    match self.eval env row with
    | .error e => (0, evalResultIsNull (.error e), some e)
    | .ok val =>
      if val.isNull then (0, true, none)
      else
        match self.getType.toClass with
        | .classReal => (val.getFloat64, false, none)
        | _ =>
          let res := sc.toFloat64 val
          (res.1, false, res.2)

/-- `baseExpr.EvalString`. The source never takes a direct accessor here:
it always calls `val.ToString()`, with a comment explaining that even
when the declared class is the string class, kinds like `KindMysqlHex`
would make `GetString` return an empty value. -/
def EvalString (env : EvalEnv) (self : Expression)
    (row : List Datum) : String × Bool × Option String :=
  if self.getType.tp = .typeNull then ("", true, none)
  else
    match self.eval env row with
    | .error e => ("", evalResultIsNull (.error e), some e)
    | .ok val =>
      if val.isNull then ("", true, none)
      else
        let res := val.toStr
        (res.1, false, res.2)

/-- `baseExpr.EvalDecimal`; the `*types.MyDecimal` result pointer is
`Option Rat` (`none` is Go's nil pointer). -/
def EvalDecimal (env : EvalEnv) (sc : StatementContext) (self : Expression)
    (row : List Datum) : Option Rat × Bool × Option String :=
  if self.getType.tp = .typeNull then (none, true, none)
  else
    match self.eval env row with
    | .error e => (none, evalResultIsNull (.error e), some e)
    | .ok val =>
      if val.isNull then (none, true, none)
      else
        match self.getType.toClass with
        | .classDecimal => (some val.getMysqlDecimal, false, none)
        | _ =>
          let res := sc.toDecimal val
          (res.1, false, res.2)

/-! ## `EvalBool` over a CNF expression list -/

/-- `EvalBool`: left-to-right evaluation of a CNF list; returns
`(bool, error)` as `Except` (the Go `(false, err)` pair is `.error err`,
`(b, nil)` is `.ok b`). -/
def EvalBool (env : EvalEnv) (sc : StatementContext) (exprList : List Expression)
    (row : List Datum) : Except String Bool :=
  match exprList with
  | [] => .ok true
  | expr :: rest =>
    match expr.eval env row with
    | .error e => .error e
    | .ok data =>
      if data.isNull then .ok false
      else
        match sc.toBool data with
        | (_, some e) => .error e
        | (i, none) =>
          if i = 0 then .ok false
          else EvalBool env sc rest row

/-! ## `Constant.Equal` -/

/-- `Constant.Equal`: the receiver is the constant's `Value`; the other
expression must be a Constant and the context comparator must report zero
without error. The source returns a bare `bool` — there is no error
channel. -/
def constantEqual (sc : StatementContext) (cValue : Datum) (b : Expression) : Bool :=
  match b with
  | .constant yValue _ =>
    match sc.compareDatum cValue yValue with
    | (_, some _) => false
    | (con, none) => if con ≠ 0 then false else true
  | _ => false

/-! ## Schema and null-substitution folding -/

/-- `KeyInfo`: ordered column group that determines a row. -/
def KeyInfo := List Column

/-- `expression.Schema` (external to this slice): ordered columns and
unique-key groups. -/
structure Schema where
  columns : List Column
  uniqueKeys : List (List Column)
  deriving Repr

/-- Modelled from the spec: `NewSchema` builds a schema over the given
columns with no keys yet; `SetUniqueKeys` then installs them. -/
def NewSchema (cols : List Column) : Schema :=
  { columns := cols, uniqueKeys := [] }

/-- `Schema.SetUniqueKeys`. -/
def Schema.setUniqueKeys (s : Schema) (keys : List (List Column)) : Schema :=
  { s with uniqueKeys := keys }

/-- Modelled from the spec: `Schema.Contains` — membership of the column
among the schema's columns (§3: Schema holds the ordered column list that
column references are resolved against). -/
def Schema.containsCol (s : Schema) (c : Column) : Bool :=
  s.columns.contains c

/-- Is the expression a Constant node? (`expression.Constant` type switch
used by constant folding.) -/
def Expression.isConstant : Expression → Bool
  | .constant _ _ => true
  | _ => false

/-- The `Value` of a constant node, null otherwise (only used under an
`isConstant` guard). -/
def Expression.constValue : Expression → Datum
  | .constant v _ => v
  | _ => .dnull

/-- Modelled from the spec: `FoldConstant` (§4.6, glossary "Constant
folding") — when every argument of a function application is already a
Constant and evaluation of the node succeeds, replace the node by the
evaluated Constant (keeping the node's declared type); otherwise return
the node unchanged. Constants ignore the row, so the empty row is
passed. -/
def FoldConstant (env : EvalEnv) (e : Expression) : Expression :=
  match e with
  | .scalarFunc _ tp args =>
    if args.all Expression.isConstant then
      match e.eval env [] with
      | .ok v => .constant v tp
      | .error _ => e
    else e
  | _ => e

mutual
/-- `EvaluateExprWithNull`: substitutes NULL for the schema's columns and
folds. A ScalarFunction is rebuilt by `NewFunction` under the same name
with the `TypeTiny` field type over the recursively rewritten arguments,
then constant-folded; construction errors abort and propagate. A column
inside the schema becomes the untyped NULL constant (`types.Datum{}` with
`TypeNull`); a column outside is returned as is; any other node is
cloned (`Clone` of a Constant is a value copy, hence the node itself). -/
def EvaluateExprWithNull (fe : FuncEnv) (env : EvalEnv) (schema : Schema) :
    Expression → Except String Expression
  | .scalarFunc name _ args =>
    match evaluateArgsWithNull fe env schema args with
    | .error e => .error e
    | .ok newArgs =>
      match NewFunction fe name (NewFieldType .typeTiny) newArgs with
      | .error e => .error e
      | .ok newFunc => .ok (FoldConstant env newFunc)
  | .column c =>
    if Schema.containsCol schema c then
      .ok (.constant .dnull (NewFieldType .typeNull))
    else
      .ok (.column c)
  | .constant v tp => .ok (.constant v tp)

/-- The argument loop of `EvaluateExprWithNull`, first error wins. -/
def evaluateArgsWithNull (fe : FuncEnv) (env : EvalEnv) (schema : Schema) :
    List Expression → Except String (List Expression)
  | [] => .ok []
  | a :: rest =>
    match EvaluateExprWithNull fe env schema a with
    | .error e => .error e
    | .ok a2 =>
      match evaluateArgsWithNull fe env schema rest with
      | .error e => .error e
      | .ok rest2 => .ok (a2 :: rest2)
end

/-! ## Table metadata and `TableInfo2Schema` -/

/-- Modelled from the spec: `mysql.NotNullFlag` (bit 0 of the MySQL
column flag word) and `mysql.PriKeyFlag` (bit 1); `HasNotNullFlag` and
`HasPriKeyFlag` test these bits. -/
def hasNotNullFlag (flag : Nat) : Bool := flag &&& 1 ≠ 0

/-- `mysql.HasPriKeyFlag`. -/
def hasPriKeyFlag (flag : Nat) : Bool := flag &&& 2 ≠ 0

/-- `model.SchemaState`: only `StatePublic` matters here. -/
inductive SchemaState where
  | stateNone
  | stateDeleteOnly
  | stateWriteOnly
  | stateWriteReorganization
  | statePublic
  deriving DecidableEq, Repr

/-- `model.ColumnInfo`: name (lowercase `CIStr.L`), declared field type,
and MySQL flag word. -/
structure ColumnInfo where
  name : String
  fieldType : FieldType
  flag : Nat
  deriving DecidableEq, Repr

/-- `model.IndexColumn`: a name reference into the table's columns. -/
structure IndexColumn where
  name : String
  deriving DecidableEq, Repr

/-- `model.IndexInfo`: constituent columns, uniqueness, schema state. -/
structure IndexInfo where
  name : String
  columns : List IndexColumn
  unique : Bool
  state : SchemaState
  deriving DecidableEq, Repr

/-- `model.TableInfo`: the slice of fields `TableInfo2Schema` reads. -/
structure TableInfo where
  name : String
  columns : List ColumnInfo
  indices : List IndexInfo
  pkIsHandle : Bool
  deriving DecidableEq, Repr

/-- A placeholder column for out-of-range positional access (never hit on
well-formed metadata, where every resolved position is in range). -/
def defaultColumn : Column :=
  { colName := "", tblName := "", retType := NewFieldType .typeNull, position := 0 }

/-- `ColumnInfos2Columns`: ordered column list in declaration order, with
positions. -/
def ColumnInfos2Columns (tblName : String) (colInfos : List ColumnInfo) : List Column :=
  (colInfos.enum).map fun p =>
    { colName := p.2.name
      tblName := tblName
      retType := p.2.fieldType
      position := p.1 }

/-- The inner loop of `TableInfo2Schema` over `tbl.Columns`: find the
first table column whose name equals the index column's name, together
with its position (the loop breaks at the first name match, whether or
not the NOT NULL check then passes). -/
def lookupIdxCol (tblCols : List ColumnInfo) (name : String) : Option (Nat × ColumnInfo) :=
  (tblCols.enum).find? fun p => p.2.name = name

/-- The per-index-column step of `TableInfo2Schema`: resolve every
constituent by name, requiring the NOT NULL flag on the first name match;
`none` as soon as one constituent fails (`ok = false`). -/
def resolveIndexCols (tblCols : List ColumnInfo) (cols : List Column) :
    List IndexColumn → Option (List Column)
  | [] => some []
  | ic :: rest =>
    match lookupIdxCol tblCols ic.name with
    | none => none
    | some p =>
      if hasNotNullFlag p.2.flag then
        match resolveIndexCols tblCols cols rest with
        | none => none
        | some tail => some (cols.getD p.1 defaultColumn :: tail)
      else none

/-- `TableInfo2Schema`: ordered columns plus unique keys — one key per
unique, public index whose constituents all resolve to NOT NULL columns,
then (independently) a singleton key for the first primary-key-flagged
column when the primary key is the row handle. -/
def TableInfo2Schema (tbl : TableInfo) : Schema :=
  let cols := ColumnInfos2Columns tbl.name tbl.columns
  let idxKeys := tbl.indices.filterMap fun idx =>
    if idx.unique && (idx.state = SchemaState.statePublic) then
      resolveIndexCols tbl.columns cols idx.columns
    else none
  let pkKeys :=
    if tbl.pkIsHandle then
      match (tbl.columns.enum).find? (fun p => hasPriKeyFlag p.2.flag) with
      | some p => [[cols.getD p.1 defaultColumn]]
      | none => []
    else []
  (NewSchema cols).setUniqueKeys (idxKeys ++ pkKeys)

/-! ## Structural measures used by the properties -/

mutual
/-- Depth of an expression tree: number of function-application levels on
the deepest path (a leaf has depth 0). -/
def Expression.depth : Expression → Nat
  | .scalarFunc _ _ args => depthList args + 1
  | _ => 0

/-- Maximum depth over a list of trees. -/
def depthList : List Expression → Nat
  | [] => 0
  | a :: rest => max a.depth (depthList rest)
end

mutual
/-- The column references of an expression tree, in left-to-right
order. -/
def Expression.columnsOf : Expression → List Column
  | .constant _ _ => []
  | .column c => [c]
  | .scalarFunc _ _ args => columnsOfList args

/-- Column references of an argument list. -/
def columnsOfList : List Expression → List Column
  | [] => []
  | a :: rest => a.columnsOf ++ columnsOfList rest
end

mutual
/-- Every function application in the tree is known to the function
registry at its argument count (true of any tree the binder built through
`NewFunction`). -/
def wellFormedExpr (fe : FuncEnv) : Expression → Bool
  | .scalarFunc name _ args => fe.valid name args.length && wellFormedList fe args
  | _ => true

/-- `wellFormedExpr` over an argument list. -/
def wellFormedList (fe : FuncEnv) : List Expression → Bool
  | [] => true
  | a :: rest => wellFormedExpr fe a && wellFormedList fe rest
end

/-- A leaf for the operator `fn`: any expression that is not a
ScalarFunction application of `fn` itself. -/
def isLeafFor (fn : String) : Expression → Bool
  | .scalarFunc name _ _ => name ≠ fn
  | _ => true

/-! ## Concrete fixtures for witnesses and counterexamples -/

/-- A registry that knows every function name at every arity. -/
def feAll : FuncEnv := ⟨fun _ _ => true⟩

/-- A registry that knows no function (every construction fails). -/
def feNone : FuncEnv := ⟨fun _ _ => false⟩

/-- An evaluation environment whose builtins are never consulted by the
fixture inputs (they only use constants and columns). -/
def envFixture : EvalEnv := ⟨fun _ _ => .error "builtin not modelled"⟩

/-- A simple total statement context. -/
def scFixture : StatementContext :=
  { toInt64 := fun d => (d.getInt64, none)
    toFloat64 := fun d => (d.getFloat64, none)
    toDecimal := fun d => (some d.getMysqlDecimal, none)
    toBool := fun d => (d.getInt64, none)
    compareDatum := fun a b => (if a = b then 0 else 1, none) }

/-! ## Theorems -/

/-- C8: composing an empty operand list yields the defined absent
expression (`none`, Go's nil — the composer has no error channel, so no
error can be produced), and composing `[x]` yields `x` itself, never
wrapped in a trivial operator application, for both the AND and the OR
composer. -/
theorem compose_empty_and_singleton (fe : FuncEnv) (x : Expression) :
    ComposeCNFCondition fe [] = none ∧ ComposeDNFCondition fe [] = none ∧
    ComposeCNFCondition fe [x] = some x ∧ ComposeDNFCondition fe [x] = some x := by
  refine ⟨?_, ?_, ?_, ?_⟩ <;>
    simp [ComposeCNFCondition, ComposeDNFCondition, composeConditionWithBinaryOp]

/-- C9: `Constant.Equal` returns true exactly when the other expression
is a Constant and the context comparator reports zero without error; a
non-zero result, a comparator error, or a non-Constant other expression
all give false. The function returns a bare `Bool`, so it cannot itself
raise an error. -/
theorem constantEqual_iff (sc : StatementContext) (v : Datum) (b : Expression) :
    constantEqual sc v b = true ↔
      ∃ y ytp, b = .constant y ytp ∧ sc.compareDatum v y = (0, none) := by
  cases b with
  | constant y ytp =>
    constructor
    · intro h
      refine ⟨y, ytp, rfl, ?_⟩
      revert h
      simp only [constantEqual]
      match hc : sc.compareDatum v y with
      | (con, some e) => simp
      | (con, none) =>
        by_cases h0 : con = 0
        · subst h0
          simp
        · simp [h0]
    · rintro ⟨y2, ytp2, heq, hcmp⟩
      cases heq
      simp [constantEqual, hcmp]
  | column c => simp [constantEqual]
  | scalarFunc n t args => simp [constantEqual]

/-- Witness for C9 at a concrete comparison. -/
theorem constantEqual_iff_witness :
    constantEqual scFixture (.dint 1) (.constant (.dint 1) (NewFieldType .typeTiny)) = true :=
  (constantEqual_iff scFixture (.dint 1) (.constant (.dint 1) (NewFieldType .typeTiny))).mpr
    ⟨.dint 1, NewFieldType .typeTiny, rfl, by simp [scFixture]⟩

/-- C5 counterexample: when building the function-application node fails
(here the registry rejects every name), the composer returns the absent
expression (`none`) in place of the tree — the construction error is
discarded (`expr, _ := NewFunction(...)` in the source), not propagated:
the claim that the error reaches the caller of `ComposeCNFCondition` is
false. -/
theorem compose_error_not_propagated_cex :
    (∃ e, NewFunction feNone astAndAnd (NewFieldType .typeTiny)
        [Expression.constant (.dint 1) (NewFieldType .typeTiny),
         Expression.constant (.dint 2) (NewFieldType .typeTiny)] = .error e) ∧
    ComposeCNFCondition feNone
        [Expression.constant (.dint 1) (NewFieldType .typeTiny),
         Expression.constant (.dint 2) (NewFieldType .typeTiny)] = none := by
  constructor
  · exact ⟨"FUNCTION " ++ astAndAnd ++ " does not exist", by simp [NewFunction, feNone]⟩
  · simp [ComposeCNFCondition, composeConditionWithBinaryOp, NewFunction, feNone]

/-- C5 amended: the composer has no error channel; if building the
joining function-application node fails, `composeConditionWithBinaryOp`
silently returns the absent expression (`none`, Go's nil) to the caller
of `ComposeCNFCondition`/`ComposeDNFCondition` — the error is discarded,
and no tree is returned. -/
theorem compose_error_discarded_amended (fe : FuncEnv) (c1 c2 : Expression)
    (rest : List Expression) (fn : String) (t1 t2 : Expression) (err : String)
    (h1 : composeConditionWithBinaryOp fe
      ((c1 :: c2 :: rest).take ((c1 :: c2 :: rest).length / 2)) fn = some t1)
    (h2 : composeConditionWithBinaryOp fe
      ((c1 :: c2 :: rest).drop ((c1 :: c2 :: rest).length / 2)) fn = some t2)
    (hfail : NewFunction fe fn (NewFieldType .typeTiny) [t1, t2] = .error err) :
    composeConditionWithBinaryOp fe (c1 :: c2 :: rest) fn = none := by
  rw [composeConditionWithBinaryOp]
  simp only [h1, h2, hfail]

/-- Witness for C5 amended at a concrete failing construction. -/
theorem compose_error_discarded_amended_witness :
    composeConditionWithBinaryOp feNone
      [Expression.constant (.dint 1) (NewFieldType .typeTiny),
       Expression.constant (.dint 2) (NewFieldType .typeTiny)] astAndAnd = none :=
  compose_error_discarded_amended feNone
    (Expression.constant (.dint 1) (NewFieldType .typeTiny))
    (Expression.constant (.dint 2) (NewFieldType .typeTiny)) [] astAndAnd
    (Expression.constant (.dint 1) (NewFieldType .typeTiny))
    (Expression.constant (.dint 2) (NewFieldType .typeTiny))
    ("FUNCTION " ++ astAndAnd ++ " does not exist")
    (by simp [composeConditionWithBinaryOp])
    (by simp [composeConditionWithBinaryOp])
    (by simp [NewFunction, feNone])

/-- C3 counterexample: `EvalString` never takes the direct accessor. At a
Constant of hex kind whose declared class is the string class (the exact
situation the source comment names), the evaluated value is non-null and
error-free, the requested extraction matches the declared class, yet the
result is the `ToString` conversion ("97"), not the direct accessor
(`GetString`, which yields ""). -/
theorem evalString_direct_accessor_cex :
    (Expression.constant (.dhex "97") (NewFieldType .typeVarchar)).getType.toClass
        = .classString ∧
    (Expression.constant (.dhex "97") (NewFieldType .typeVarchar)).eval envFixture []
        = .ok (.dhex "97") ∧
    Datum.isNull (.dhex "97") = false ∧
    EvalString envFixture (Expression.constant (.dhex "97") (NewFieldType .typeVarchar)) []
        = ("97", false, none) ∧
    Datum.getString (.dhex "97") ≠ "97" := by
  refine ⟨rfl, ?_, rfl, ?_, by decide⟩
  · simp [Expression.eval]
  · simp [EvalString, Expression.eval, Expression.getType, NewFieldType, Datum.isNull,
      Datum.toStr]

/-- C3 amended: for `EvalInt`, `EvalReal` and `EvalDecimal`, when the
declared class matches the requested extraction and the evaluated value
is non-null and error-free, the result is the direct, non-converting
accessor, and the directional conversion is invoked exactly when the
classes differ; `EvalString`, however, always returns the result of the
`ToString` conversion, even when the declared class is the string class
(the source comments that the direct accessor would lose hex values). -/
theorem coercion_base_amended (env : EvalEnv) (sc : StatementContext)
    (self : Expression) (row : List Datum) (val : Datum)
    (htp : self.getType.tp ≠ .typeNull)
    (heval : self.eval env row = .ok val)
    (hnn : val.isNull = false) :
    (self.getType.toClass = .classInt →
      EvalInt env sc self row = (val.getInt64, false, none)) ∧
    (self.getType.toClass ≠ .classInt →
      EvalInt env sc self row = ((sc.toInt64 val).1, false, (sc.toInt64 val).2)) ∧
    (self.getType.toClass = .classReal →
      EvalReal env sc self row = (val.getFloat64, false, none)) ∧
    (self.getType.toClass ≠ .classReal →
      EvalReal env sc self row = ((sc.toFloat64 val).1, false, (sc.toFloat64 val).2)) ∧
    (self.getType.toClass = .classDecimal →
      EvalDecimal env sc self row = (some val.getMysqlDecimal, false, none)) ∧
    (self.getType.toClass ≠ .classDecimal →
      EvalDecimal env sc self row = ((sc.toDecimal val).1, false, (sc.toDecimal val).2)) ∧
    EvalString env self row = (val.toStr.1, false, val.toStr.2) := by
  refine ⟨?_, ?_, ?_, ?_, ?_, ?_, ?_⟩
  · intro hcls
    simp [EvalInt, htp, heval, hnn, hcls]
  · intro hcls
    simp only [EvalInt, htp, if_neg htp, heval, hnn, Bool.false_eq_true, if_false]
  · intro hcls
    simp [EvalReal, htp, heval, hnn, hcls]
  · intro hcls
    simp only [EvalReal, htp, if_neg htp, heval, hnn, Bool.false_eq_true, if_false]
  · intro hcls
    simp [EvalDecimal, htp, heval, hnn, hcls]
  · intro hcls
    simp only [EvalDecimal, htp, if_neg htp, heval, hnn, Bool.false_eq_true, if_false]
  · simp [EvalString, htp, heval, hnn]

/-- Witness for C3 amended: a tiny-typed integer constant takes the
direct integer accessor. -/
theorem coercion_base_amended_witness :
    EvalInt envFixture scFixture (Expression.constant (.dint 5) (NewFieldType .typeTiny)) []
      = (5, false, none) :=
  (coercion_base_amended envFixture scFixture
      (Expression.constant (.dint 5) (NewFieldType .typeTiny)) [] (.dint 5)
      (by decide) (by simp [Expression.eval]) rfl).1 rfl

/-- An expression passes the `EvalBool` scan: it evaluates without error
to a non-null value whose boolean conversion succeeds with a non-zero
result. -/
def exprHolds (env : EvalEnv) (sc : StatementContext) (row : List Datum)
    (e : Expression) : Prop :=
  ∃ d i, e.eval env row = .ok d ∧ d.isNull = false ∧ sc.toBool d = (i, none) ∧ i ≠ 0

/-- C10: `EvalBool` returns `(true, nil)` iff every listed expression
evaluates without error to a non-null value with non-zero boolean
conversion; it returns `(false, nil)` as soon as the left-to-right scan
meets a NULL or a boolean zero, and `(false, err)` as soon as an
evaluation or conversion errors — in both cases whatever follows the
deciding expression is irrelevant (it is never evaluated). -/
theorem evalBool_characterization (env : EvalEnv) (sc : StatementContext)
    (row : List Datum) :
    (∀ l : List Expression,
      (EvalBool env sc l row = .ok true ↔ ∀ e ∈ l, exprHolds env sc row e)) ∧
    (∀ (l1 : List Expression) (e : Expression) (l2 : List Expression) (d : Datum),
      (∀ x ∈ l1, exprHolds env sc row x) →
      e.eval env row = .ok d →
      (d.isNull = true ∨ (d.isNull = false ∧ sc.toBool d = (0, none))) →
      EvalBool env sc (l1 ++ e :: l2) row = .ok false) ∧
    (∀ (l1 : List Expression) (e : Expression) (l2 : List Expression) (err : String),
      (∀ x ∈ l1, exprHolds env sc row x) →
      (e.eval env row = .error err ∨
        (∃ d i, e.eval env row = .ok d ∧ d.isNull = false ∧ sc.toBool d = (i, some err))) →
      EvalBool env sc (l1 ++ e :: l2) row = .error err) := by
  refine ⟨?_, ?_, ?_⟩
  · intro l
    induction l with
    | nil => simp [EvalBool]
    | cons e rest ih =>
      simp only [EvalBool]
      cases he : e.eval env row with
      | error s => simp [exprHolds, he]
      | ok d =>
        cases hn : d.isNull with
        | true => simp [exprHolds, he, hn]
        | false =>
          match hb : sc.toBool d with
          | (i, some s) => simp [exprHolds, he, hn, hb]
          | (i, none) =>
            by_cases hi : i = 0
            · subst hi
              simp [exprHolds, he, hn, hb]
            · simp only [hn, Bool.false_eq_true, if_false, hb, hi, if_neg hi]
              rw [ih]
              constructor
              · intro hrest
                intro x hx
                rcases List.mem_cons.mp hx with hx1 | hx2
                · subst hx1
                  exact ⟨d, i, he, hn, hb, hi⟩
                · exact hrest x hx2
              · intro hall x hx
                exact hall x (List.mem_cons_of_mem _ hx)
  · intro l1 e l2 d hpre he hdec
    induction l1 with
    | nil =>
      simp only [List.nil_append, EvalBool, he]
      rcases hdec with hnull | ⟨hnn, hz⟩
      · simp [hnull]
      · simp [hnn, hz]
    | cons a rest ih =>
      rcases hpre a (List.mem_cons_self a rest) with ⟨da, ia, hea, hna, hba, hia⟩
      simp only [List.cons_append, EvalBool, hea, hna, hba]
      simp only [Bool.false_eq_true, if_false, if_neg hia]
      exact ih fun x hx => hpre x (List.mem_cons_of_mem _ hx)
  · intro l1 e l2 err hpre hdec
    induction l1 with
    | nil =>
      rcases hdec with herr | ⟨d, i, he, hnn, hb⟩
      · simp [EvalBool, herr]
      · simp [EvalBool, he, hnn, hb]
    | cons a rest ih =>
      rcases hpre a (List.mem_cons_self a rest) with ⟨da, ia, hea, hna, hba, hia⟩
      simp only [List.cons_append, EvalBool, hea, hna, hba]
      simp only [Bool.false_eq_true, if_false, if_neg hia]
      exact ih fun x hx => hpre x (List.mem_cons_of_mem _ hx)

/-- Witness for C10 at a concrete list: a true constant and a null
constant decide the scan. -/
theorem evalBool_characterization_witness :
    EvalBool envFixture scFixture
      [Expression.constant (.dint 1) (NewFieldType .typeTiny),
       Expression.constant .dnull (NewFieldType .typeTiny)] [] = .ok false :=
  (evalBool_characterization envFixture scFixture []).2.1
    [Expression.constant (.dint 1) (NewFieldType .typeTiny)]
    (Expression.constant .dnull (NewFieldType .typeTiny)) [] .dnull
    (by
      intro x hx
      simp only [List.mem_singleton] at hx
      subst hx
      exact ⟨.dint 1, 1, by simp [Expression.eval], rfl, by simp [scFixture, Datum.getInt64], by decide⟩)
    (by simp [Expression.eval])
    (Or.inl rfl)

/-- Declarative key-candidate condition of C2: the index is unique, in
public state, and every constituent column resolves by name (first match
in declaration order) to a table column carrying the NOT NULL flag. -/
def specGoodIndex (tblCols : List ColumnInfo) (idx : IndexInfo) : Bool :=
  idx.unique && (idx.state = SchemaState.statePublic) &&
    idx.columns.all fun ic =>
      match lookupIdxCol tblCols ic.name with
      | some p => hasNotNullFlag p.2.flag
      | none => false

/-- The ordered column group an admitted index contributes: each
constituent replaced by the schema column at its resolved position. -/
def specIndexKey (tblCols : List ColumnInfo) (cols : List Column)
    (idx : IndexInfo) : List Column :=
  idx.columns.filterMap fun ic =>
    (lookupIdxCol tblCols ic.name).map fun p => cols.getD p.1 defaultColumn

/-- The early-exit resolution loop succeeds exactly on the declaratively
good constituent lists, and then returns the resolved column group. -/
theorem resolveIndexCols_eq (tblCols : List ColumnInfo) (cols : List Column)
    (ics : List IndexColumn) :
    resolveIndexCols tblCols cols ics =
      if ics.all (fun ic =>
          match lookupIdxCol tblCols ic.name with
          | some p => hasNotNullFlag p.2.flag
          | none => false) then
        some (ics.filterMap fun ic =>
          (lookupIdxCol tblCols ic.name).map fun p => cols.getD p.1 defaultColumn)
      else none := by
  induction ics with
  | nil => simp [resolveIndexCols]
  | cons ic rest ih =>
    simp only [resolveIndexCols, List.all_cons, List.filterMap_cons]
    cases hl : lookupIdxCol tblCols ic.name with
    | none => simp
    | some p =>
      cases hf : hasNotNullFlag p.2.flag with
      | false => simp [ih, hf]
      | true =>
        rw [ih]
        cases hall : (rest.all fun ic =>
            match lookupIdxCol tblCols ic.name with
            | some p => hasNotNullFlag p.2.flag
            | none => false) with
        | true => simp_all
        | false => simp_all

/-- C2: `TableInfo2Schema` installs as unique keys exactly (in order) the
column group of every index that is unique, public, and whose
constituents all resolve by name to NOT-NULL table columns — and, when
the primary key is the row handle, additionally (and independently of the
index-derived keys) a singleton group for the first column carrying the
primary-key flag, if one exists. -/
theorem tableInfo2Schema_uniqueKeys_characterization (tbl : TableInfo) :
    (TableInfo2Schema tbl).uniqueKeys =
      (tbl.indices.filterMap fun idx =>
        if specGoodIndex tbl.columns idx then
          some (specIndexKey tbl.columns (ColumnInfos2Columns tbl.name tbl.columns) idx)
        else none)
      ++ (if tbl.pkIsHandle then
            match (tbl.columns.enum).find? (fun p => hasPriKeyFlag p.2.flag) with
            | some p =>
              [[(ColumnInfos2Columns tbl.name tbl.columns).getD p.1 defaultColumn]]
            | none => []
          else []) := by
  simp only [TableInfo2Schema, NewSchema, Schema.setUniqueKeys]
  congr 1
  apply List.filterMap_congr
  intro idx _
  by_cases hu : idx.unique && (idx.state = SchemaState.statePublic)
  · rw [if_pos hu, resolveIndexCols_eq]
    simp only [specGoodIndex, specIndexKey, Bool.and_assoc]
    rcases Bool.and_eq_true_iff.mp hu with ⟨hu1, hu2⟩
    simp [hu1, hu2]
  · rw [if_neg hu]
    simp only [Bool.and_eq_true, decide_eq_true_eq, not_and_or] at hu
    rcases hu with h1 | h2
    · simp [specGoodIndex, h1]
    · simp [specGoodIndex, h2]

/-- A sample column of long-long type at position 0. -/
def colX : Column :=
  { colName := "x", tblName := "t", retType := NewFieldType .typeLonglong, position := 0 }

/-- C4 counterexample: the null-substitution folder rebuilds the function
application with the `TypeTiny` field type (`types.NewFieldType(mysql.TypeTiny)`
in the source), not with the original node's declared return type: a
long-long-typed application comes back tiny-typed. -/
theorem evaluateExprWithNull_retType_cex :
    EvaluateExprWithNull feAll envFixture (NewSchema [])
        (.scalarFunc "f" (NewFieldType .typeLonglong) [.column colX])
      = .ok (.scalarFunc "f" (NewFieldType .typeTiny) [.column colX]) ∧
    (Expression.scalarFunc "f" (NewFieldType .typeTiny) [.column colX]).getType
      ≠ (Expression.scalarFunc "f" (NewFieldType .typeLonglong) [.column colX]).getType := by
  constructor
  · simp [EvaluateExprWithNull, evaluateArgsWithNull, NewFunction, feAll,
      Schema.containsCol, NewSchema, FoldConstant, Expression.isConstant]
  · decide

/-- C4 amended: for every ScalarFunction node the folder rewrites, the
rebuilt application (the node handed to constant folding) carries the
same function name over the rewritten arguments, but its declared return
type is always the `TypeTiny` field type, regardless of the original
node's declared type. -/
theorem evaluateExprWithNull_rebuild_amended (fe : FuncEnv) (env : EvalEnv)
    (s : Schema) (name : String) (tp : FieldType) (args : List Expression)
    (r : Expression)
    (h : EvaluateExprWithNull fe env s (.scalarFunc name tp args) = .ok r) :
    ∃ newArgs, evaluateArgsWithNull fe env s args = .ok newArgs ∧
      fe.valid name newArgs.length = true ∧
      r = FoldConstant env (.scalarFunc name (NewFieldType .typeTiny) newArgs) := by
  simp only [EvaluateExprWithNull] at h
  cases ha : evaluateArgsWithNull fe env s args with
  | error e =>
    rw [ha] at h
    cases h
  | ok newArgs =>
    rw [ha] at h
    by_cases hv : fe.valid name newArgs.length = true
    · refine ⟨newArgs, rfl, hv, ?_⟩
      simp only [NewFunction, hv, if_true] at h
      cases h
      rfl
    · simp only [NewFunction, hv, if_false, Bool.false_eq_true] at h
      cases h

/-- Witness for C4 amended at the counterexample input. -/
theorem evaluateExprWithNull_rebuild_amended_witness :
    ∃ newArgs,
      evaluateArgsWithNull feAll envFixture (NewSchema []) [.column colX] = .ok newArgs ∧
      feAll.valid "f" newArgs.length = true ∧
      (Expression.scalarFunc "f" (NewFieldType .typeTiny) [.column colX])
        = FoldConstant envFixture (.scalarFunc "f" (NewFieldType .typeTiny) newArgs) :=
  evaluateExprWithNull_rebuild_amended feAll envFixture (NewSchema []) "f"
    (NewFieldType .typeLonglong) [.column colX]
    (.scalarFunc "f" (NewFieldType .typeTiny) [.column colX])
    (by simp [EvaluateExprWithNull, evaluateArgsWithNull, NewFunction, feAll,
      Schema.containsCol, NewSchema, FoldConstant, Expression.isConstant])

/-- Splitting a leaf for `fn` returns the singleton list. -/
theorem split_leaf (fn : String) (e : Expression) (h : isLeafFor fn e = true) :
    splitNormalFormItems e fn = [e] := by
  cases e with
  | constant v tp => simp [splitNormalFormItems]
  | column c => simp [splitNormalFormItems]
  | scalarFunc name tp args =>
    simp only [isLeafFor, ne_eq, decide_not, Bool.not_eq_eq_eq_not, Bool.not_true,
      decide_eq_false_iff_not] at h
    simp [splitNormalFormItems, h]

/-- Round-trip helper: on a non-empty list of leaves for `fn`, composing
under `fn` succeeds and splitting recovers the list, by strong induction
on the length. -/
theorem roundtrip_aux (fe : FuncEnv) (fn : String) (hval : fe.valid fn 2 = true) :
    ∀ n (L : List Expression), L.length = n → L ≠ [] →
      (∀ e ∈ L, isLeafFor fn e = true) →
      ∃ t, composeConditionWithBinaryOp fe L fn = some t ∧
        splitNormalFormItems t fn = L := by
  intro n
  induction n using Nat.strong_induction_on with
  | _ n ih =>
    intro L hlen hne hleaf
    match L with
    | [] => exact absurd rfl hne
    | [c] =>
      refine ⟨c, by simp [composeConditionWithBinaryOp], ?_⟩
      exact split_leaf fn c (hleaf c (List.mem_singleton.mpr rfl))
    | c1 :: c2 :: rest =>
      have hlen2 : 2 ≤ (c1 :: c2 :: rest).length := by simp
      have hhalf1 : ((c1 :: c2 :: rest).take ((c1 :: c2 :: rest).length / 2)).length
          = (c1 :: c2 :: rest).length / 2 := by
        simp only [List.length_take]
        omega
      have hhalf2 : ((c1 :: c2 :: rest).drop ((c1 :: c2 :: rest).length / 2)).length
          = (c1 :: c2 :: rest).length - (c1 :: c2 :: rest).length / 2 := by
        simp [List.length_drop]
      obtain ⟨t1, hc1, hs1⟩ :=
        ih (((c1 :: c2 :: rest).take ((c1 :: c2 :: rest).length / 2)).length)
          (by rw [hhalf1]; omega)
          ((c1 :: c2 :: rest).take ((c1 :: c2 :: rest).length / 2)) rfl
          (by rw [← List.length_pos_iff_ne_nil, hhalf1]; omega)
          (fun e he => hleaf e (List.take_subset _ _ he))
      obtain ⟨t2, hc2, hs2⟩ :=
        ih (((c1 :: c2 :: rest).drop ((c1 :: c2 :: rest).length / 2)).length)
          (by rw [hhalf2]; omega)
          ((c1 :: c2 :: rest).drop ((c1 :: c2 :: rest).length / 2)) rfl
          (by rw [← List.length_pos_iff_ne_nil, hhalf2]; omega)
          (fun e he => hleaf e (List.drop_subset _ _ he))
      refine ⟨.scalarFunc fn (NewFieldType .typeTiny) [t1, t2], ?_, ?_⟩
      · rw [composeConditionWithBinaryOp]
        simp only [List.length_cons] at hc1 hc2
        simp only [List.length_cons, hc1, hc2, NewFunction, List.length_nil, hval, if_true]
      · simp only [splitNormalFormItems, if_pos rfl, splitNormalFormList, hs1, hs2,
          List.append_nil]
        exact List.take_append_drop _ _

/-- C1: for every non-empty ordered sequence of leaves (expressions that
are not applications of the operator in question), splitting the tree the
composer builds returns exactly the original sequence in order — for the
AND pair (`SplitCNFItems` ∘ `ComposeCNFCondition`) and the OR pair
(`SplitDNFItems` ∘ `ComposeDNFCondition`) alike. -/
theorem split_compose_roundtrip (fe : FuncEnv) (L : List Expression)
    (hand : fe.valid astAndAnd 2 = true) (hor : fe.valid astOrOr 2 = true)
    (hne : L ≠ [])
    (hleafA : ∀ e ∈ L, isLeafFor astAndAnd e = true)
    (hleafO : ∀ e ∈ L, isLeafFor astOrOr e = true) :
    (∃ t, ComposeCNFCondition fe L = some t ∧ SplitCNFItems t = L) ∧
    (∃ t, ComposeDNFCondition fe L = some t ∧ SplitDNFItems t = L) := by
  constructor
  · exact roundtrip_aux fe astAndAnd hand L.length L rfl hne hleafA
  · exact roundtrip_aux fe astOrOr hor L.length L rfl hne hleafO

/-- Witness for C1 on the worked example of four constant leaves. -/
theorem split_compose_roundtrip_witness :
    (∃ t, ComposeCNFCondition feAll
        [Expression.constant (.dint 1) (NewFieldType .typeTiny),
         Expression.constant (.dint 2) (NewFieldType .typeTiny),
         Expression.constant (.dint 3) (NewFieldType .typeTiny),
         Expression.constant (.dint 4) (NewFieldType .typeTiny)] = some t ∧
      SplitCNFItems t =
        [Expression.constant (.dint 1) (NewFieldType .typeTiny),
         Expression.constant (.dint 2) (NewFieldType .typeTiny),
         Expression.constant (.dint 3) (NewFieldType .typeTiny),
         Expression.constant (.dint 4) (NewFieldType .typeTiny)]) ∧
    (∃ t, ComposeDNFCondition feAll
        [Expression.constant (.dint 1) (NewFieldType .typeTiny),
         Expression.constant (.dint 2) (NewFieldType .typeTiny),
         Expression.constant (.dint 3) (NewFieldType .typeTiny),
         Expression.constant (.dint 4) (NewFieldType .typeTiny)] = some t ∧
      SplitDNFItems t =
        [Expression.constant (.dint 1) (NewFieldType .typeTiny),
         Expression.constant (.dint 2) (NewFieldType .typeTiny),
         Expression.constant (.dint 3) (NewFieldType .typeTiny),
         Expression.constant (.dint 4) (NewFieldType .typeTiny)]) :=
  split_compose_roundtrip feAll _ rfl rfl (by simp)
    (by
      intro e he
      simp only [List.mem_cons, List.not_mem_nil, or_false] at he
      rcases he with rfl | rfl | rfl | rfl <;> rfl)
    (by
      intro e he
      simp only [List.mem_cons, List.not_mem_nil, or_false] at he
      rcases he with rfl | rfl | rfl | rfl <;> rfl)

/-- Depth helper: composing `n ≥ 1` depth-0 operands under `fn` yields a
tree of depth exactly `⌈log2 n⌉`, by strong induction on the length: the
midpoint split gives halves of `⌊n/2⌋` and `⌈n/2⌉` operands joined by one
operator level. -/
theorem depth_aux (fe : FuncEnv) (fn : String) (hval : fe.valid fn 2 = true) :
    ∀ n (L : List Expression), L.length = n → 1 ≤ n →
      (∀ e ∈ L, e.depth = 0) →
      ∃ t, composeConditionWithBinaryOp fe L fn = some t ∧
        t.depth = Nat.clog 2 n := by
  intro n
  induction n using Nat.strong_induction_on with
  | _ n ih =>
    intro L hlen h1 hd
    match L with
    | [] => simp at hlen; omega
    | [c] =>
      refine ⟨c, by simp [composeConditionWithBinaryOp], ?_⟩
      have hn1 : n = 1 := by simpa using hlen.symm
      rw [hd c (List.mem_singleton.mpr rfl), hn1, Nat.clog_of_right_le_one le_rfl]
    | c1 :: c2 :: rest =>
      have hm2 : 2 ≤ (c1 :: c2 :: rest).length := by simp
      have hhalf1 : ((c1 :: c2 :: rest).take ((c1 :: c2 :: rest).length / 2)).length
          = (c1 :: c2 :: rest).length / 2 := by
        simp only [List.length_take]
        omega
      have hhalf2 : ((c1 :: c2 :: rest).drop ((c1 :: c2 :: rest).length / 2)).length
          = (c1 :: c2 :: rest).length - (c1 :: c2 :: rest).length / 2 := by
        simp [List.length_drop]
      obtain ⟨t1, hc1, hd1⟩ :=
        ih (((c1 :: c2 :: rest).take ((c1 :: c2 :: rest).length / 2)).length)
          (by rw [hhalf1]; omega)
          ((c1 :: c2 :: rest).take ((c1 :: c2 :: rest).length / 2)) rfl
          (by rw [hhalf1]; omega)
          (fun e he => hd e (List.take_subset _ _ he))
      obtain ⟨t2, hc2, hd2⟩ :=
        ih (((c1 :: c2 :: rest).drop ((c1 :: c2 :: rest).length / 2)).length)
          (by rw [hhalf2]; omega)
          ((c1 :: c2 :: rest).drop ((c1 :: c2 :: rest).length / 2)) rfl
          (by rw [hhalf2]; omega)
          (fun e he => hd e (List.drop_subset _ _ he))
      refine ⟨.scalarFunc fn (NewFieldType .typeTiny) [t1, t2], ?_, ?_⟩
      · rw [composeConditionWithBinaryOp]
        simp only [List.length_cons] at hc1 hc2
        simp only [List.length_cons, hc1, hc2, NewFunction, List.length_nil, hval, if_true]
      · rw [hhalf1] at hd1
        rw [hhalf2] at hd2
        have hmono : Nat.clog 2 ((c1 :: c2 :: rest).length / 2)
            ≤ Nat.clog 2 ((c1 :: c2 :: rest).length - (c1 :: c2 :: rest).length / 2) :=
          Nat.clog_mono_right 2 (by omega)
        have hceil : (c1 :: c2 :: rest).length - (c1 :: c2 :: rest).length / 2
            = ((c1 :: c2 :: rest).length + 2 - 1) / 2 := by omega
        have hrec : Nat.clog 2 (c1 :: c2 :: rest).length
            = Nat.clog 2 (((c1 :: c2 :: rest).length + 2 - 1) / 2) + 1 :=
          Nat.clog_of_two_le (by norm_num) hm2
        simp only [Expression.depth, depthList, hd1, hd2, Nat.max_zero]
        rw [Nat.max_eq_right hmono, hceil, ← hrec, hlen]

/-- C7: for every operand list of `n ≥ 2` depth-0 operands, the balanced
tree the composer builds (AND and OR alike) has depth exactly
`⌈log2 n⌉ = Nat.clog 2 n` — in particular within an additive constant of
`⌈log2 n⌉`. -/
theorem compose_depth_clog (fe : FuncEnv) (L : List Expression)
    (hand : fe.valid astAndAnd 2 = true) (hor : fe.valid astOrOr 2 = true)
    (h2 : 2 ≤ L.length) (hd : ∀ e ∈ L, e.depth = 0) :
    (∃ t, ComposeCNFCondition fe L = some t ∧ t.depth = Nat.clog 2 L.length) ∧
    (∃ t, ComposeDNFCondition fe L = some t ∧ t.depth = Nat.clog 2 L.length) := by
  constructor
  · exact depth_aux fe astAndAnd hand L.length L rfl (by omega) hd
  · exact depth_aux fe astOrOr hor L.length L rfl (by omega) hd

/-- Witness for C7 at five constant leaves: depth `⌈log2 5⌉ = 3`. -/
theorem compose_depth_clog_witness :
    (∃ t, ComposeCNFCondition feAll
        [Expression.constant (.dint 1) (NewFieldType .typeTiny),
         Expression.constant (.dint 2) (NewFieldType .typeTiny),
         Expression.constant (.dint 3) (NewFieldType .typeTiny),
         Expression.constant (.dint 4) (NewFieldType .typeTiny),
         Expression.constant (.dint 5) (NewFieldType .typeTiny)] = some t ∧
      t.depth = Nat.clog 2
        [Expression.constant (.dint 1) (NewFieldType .typeTiny),
         Expression.constant (.dint 2) (NewFieldType .typeTiny),
         Expression.constant (.dint 3) (NewFieldType .typeTiny),
         Expression.constant (.dint 4) (NewFieldType .typeTiny),
         Expression.constant (.dint 5) (NewFieldType .typeTiny)].length) ∧
    (∃ t, ComposeDNFCondition feAll
        [Expression.constant (.dint 1) (NewFieldType .typeTiny),
         Expression.constant (.dint 2) (NewFieldType .typeTiny),
         Expression.constant (.dint 3) (NewFieldType .typeTiny),
         Expression.constant (.dint 4) (NewFieldType .typeTiny),
         Expression.constant (.dint 5) (NewFieldType .typeTiny)] = some t ∧
      t.depth = Nat.clog 2
        [Expression.constant (.dint 1) (NewFieldType .typeTiny),
         Expression.constant (.dint 2) (NewFieldType .typeTiny),
         Expression.constant (.dint 3) (NewFieldType .typeTiny),
         Expression.constant (.dint 4) (NewFieldType .typeTiny),
         Expression.constant (.dint 5) (NewFieldType .typeTiny)].length) :=
  compose_depth_clog feAll _ rfl rfl (by simp)
    (by
      intro e he
      simp only [List.mem_cons, List.not_mem_nil, or_false] at he
      rcases he with rfl | rfl | rfl | rfl | rfl <;> simp [Expression.depth])

/-- A list of constant expressions evaluates independently of the row. -/
theorem evalList_const_row (env : EvalEnv) (args : List Expression)
    (h : args.all Expression.isConstant = true) (row : List Datum) :
    Expression.evalList env row args = Expression.evalList env [] args := by
  induction args with
  | nil => simp [Expression.evalList]
  | cons a rest ih =>
    simp only [List.all_cons, Bool.and_eq_true] at h
    cases a with
    | constant v tp =>
      simp only [Expression.evalList, Expression.eval]
      rw [ih h.2]
    | column c => simp [Expression.isConstant] at h
    | scalarFunc nm tp as => simp [Expression.isConstant] at h

/-- Constant folding preserves evaluation on every row: a fold fires only
when all arguments are constants, in which case the node's value is
row-independent and the folded Constant returns exactly it. -/
theorem foldConstant_eval (env : EvalEnv) (e : Expression) (row : List Datum) :
    (FoldConstant env e).eval env row = e.eval env row := by
  cases e with
  | constant v tp => simp [FoldConstant]
  | column c => simp [FoldConstant]
  | scalarFunc name tp args =>
    simp only [FoldConstant]
    cases hall : args.all Expression.isConstant with
    | false => simp
    | true =>
      have hrow : Expression.eval env row (.scalarFunc name tp args)
          = Expression.eval env [] (.scalarFunc name tp args) := by
        simp only [Expression.eval]
        rw [evalList_const_row env args hall row]
      cases hev : Expression.eval env [] (.scalarFunc name tp args) with
      | error e0 => simp [hev]
      | ok v =>
        simp only [hev, if_true]
        rw [hrow, hev]
        simp [Expression.eval]

/-- Constant arguments contain no column references. -/
theorem all_const_columns_nil (args : List Expression)
    (h : args.all Expression.isConstant = true) : columnsOfList args = [] := by
  induction args with
  | nil => simp [columnsOfList]
  | cons a rest ih =>
    simp only [List.all_cons, Bool.and_eq_true] at h
    cases a with
    | constant v tp => simp [columnsOfList, Expression.columnsOf, ih h.2]
    | column c => simp [Expression.isConstant] at h
    | scalarFunc nm tp as => simp [Expression.isConstant] at h

/-- Constant folding preserves the tree's column references. -/
theorem foldConstant_columns (env : EvalEnv) (e : Expression) :
    (FoldConstant env e).columnsOf = e.columnsOf := by
  cases e with
  | constant v tp => simp [FoldConstant]
  | column c => simp [FoldConstant]
  | scalarFunc name tp args =>
    simp only [FoldConstant]
    cases hall : args.all Expression.isConstant with
    | false => simp
    | true =>
      cases hev : Expression.eval env [] (.scalarFunc name tp args) with
      | error e0 => simp [hev]
      | ok v =>
        simp only [hev, if_true]
        simp [Expression.columnsOf, all_const_columns_nil args hall]

/-- C6 helper, by strong induction on `sizeOf`: on a schema with no
columns, the folder succeeds on every well-formed tree (and argument
list), preserves the column references exactly, and the result evaluates
to the same value on every row. -/
theorem evaluateExprWithNull_empty_aux (fe : FuncEnv) (env : EvalEnv) :
    ∀ n : Nat,
    (∀ e : Expression, sizeOf e ≤ n → wellFormedExpr fe e = true →
      ∃ r, EvaluateExprWithNull fe env (NewSchema []) e = .ok r ∧
        r.columnsOf = e.columnsOf ∧ ∀ row, r.eval env row = e.eval env row) ∧
    (∀ es : List Expression, sizeOf es ≤ n → wellFormedList fe es = true →
      ∃ rs, evaluateArgsWithNull fe env (NewSchema []) es = .ok rs ∧
        rs.length = es.length ∧
        columnsOfList rs = columnsOfList es ∧
        ∀ row, Expression.evalList env row rs = Expression.evalList env row es) := by
  intro n
  induction n using Nat.strong_induction_on with
  | _ n ih =>
    constructor
    · intro e hsz hwf
      cases e with
      | constant v tp =>
        exact ⟨.constant v tp, by simp [EvaluateExprWithNull], rfl, fun row => rfl⟩
      | column c =>
        refine ⟨.column c, ?_, rfl, fun row => rfl⟩
        simp [EvaluateExprWithNull, Schema.containsCol, NewSchema]
      | scalarFunc name tp args =>
        simp only [wellFormedExpr, Bool.and_eq_true] at hwf
        have hlt : sizeOf args < n := by
          have hs : sizeOf (Expression.scalarFunc name tp args)
              = 1 + sizeOf name + sizeOf tp + sizeOf args := by
            simp
          omega
        obtain ⟨rs, hargs, hlen, hcols, heval⟩ := (ih (sizeOf args) hlt).2 args le_rfl hwf.2
        have hvalid : fe.valid name rs.length = true := by rw [hlen]; exact hwf.1
        refine ⟨FoldConstant env (.scalarFunc name (NewFieldType .typeTiny) rs), ?_, ?_, ?_⟩
        · simp only [EvaluateExprWithNull, hargs, NewFunction, hvalid, if_true]
        · rw [foldConstant_columns]
          simp only [Expression.columnsOf, hcols]
        · intro row
          rw [foldConstant_eval]
          simp only [Expression.eval]
          rw [heval row]
    · intro es hsz hwfl
      cases es with
      | nil => exact ⟨[], by simp [evaluateArgsWithNull], rfl, rfl, fun row => rfl⟩
      | cons a rest =>
        simp only [wellFormedList, Bool.and_eq_true] at hwfl
        have hsa : sizeOf a < n := by
          have hs : sizeOf (a :: rest) = 1 + sizeOf a + sizeOf rest := by simp
          omega
        have hsr : sizeOf rest < n := by
          have hs : sizeOf (a :: rest) = 1 + sizeOf a + sizeOf rest := by simp
          omega
        obtain ⟨r, hr, hrc, hre⟩ := (ih (sizeOf a) hsa).1 a le_rfl hwfl.1
        obtain ⟨rs, hrs, hlen, hcols2, hevals⟩ := (ih (sizeOf rest) hsr).2 rest le_rfl hwfl.2
        refine ⟨r :: rs, ?_, ?_, ?_, ?_⟩
        · simp only [evaluateArgsWithNull, hr, hrs]
        · simp [hlen]
        · simp only [columnsOfList, hrc, hcols2]
        · intro row
          simp only [Expression.evalList]
          rw [hre row, hevals row]

/-- C6: folding a well-formed tree against a schema with no columns
yields a value-equal result — it evaluates to the same datum on every
row — whose column references are structurally unchanged (the exact same
ordered list of column nodes). -/
theorem evaluateExprWithNull_empty_schema (fe : FuncEnv) (env : EvalEnv)
    (e : Expression) (hwf : wellFormedExpr fe e = true) :
    ∃ r, EvaluateExprWithNull fe env (NewSchema []) e = .ok r ∧
      r.columnsOf = e.columnsOf ∧ ∀ row, r.eval env row = e.eval env row :=
  (evaluateExprWithNull_empty_aux fe env (sizeOf e)).1 e le_rfl hwf

/-- Witness for C6 at a concrete mixed tree. -/
theorem evaluateExprWithNull_empty_schema_witness :
    ∃ r, EvaluateExprWithNull feAll envFixture (NewSchema [])
        (.scalarFunc "f" (NewFieldType .typeLonglong)
          [.column colX, .constant (.dint 3) (NewFieldType .typeTiny)]) = .ok r ∧
      r.columnsOf = (Expression.scalarFunc "f" (NewFieldType .typeLonglong)
          [.column colX, .constant (.dint 3) (NewFieldType .typeTiny)]).columnsOf ∧
      ∀ row, r.eval envFixture row
        = (Expression.scalarFunc "f" (NewFieldType .typeLonglong)
            [.column colX, .constant (.dint 3) (NewFieldType .typeTiny)]).eval envFixture row :=
  evaluateExprWithNull_empty_schema feAll envFixture
    (.scalarFunc "f" (NewFieldType .typeLonglong)
      [.column colX, .constant (.dint 3) (NewFieldType .typeTiny)])
    (by simp [wellFormedExpr, wellFormedList, feAll])

end TidbExpression
